import Mathlib

/-!
Verification of the sbclassifier scoring engine and its count stores.

The Python sources are shallowly embedded:

* Python dicts holding integer counts become functions `Token → Option Int`
  (`none` = key absent), with `dict.get(k, 0)` embedded as `dget`.
* Python numbers are idealised as exact arithmetic: the integer counts stay
  `Int`, float computations that only add/multiply/divide become `ℚ`, and
  the transcendental parts (`math.log`, `math.exp` in `chi2.py`) live in `ℝ`.
* Fallible Python code (raising AssertionError / ZeroDivisionError /
  NameError / ValueError) returns `Except PyErr _`.
* Methods that may touch the mutable store are threaded through the state
  monad `StM` so that read-only-ness is expressible; each store method's
  embedding returns exactly the fields the Python body assigns.
-/

set_option maxHeartbeats 1000000

/-- Tokens are arbitrary strings (Python compares them lexicographically by
code point, which is exactly `String.lt` on `String.data`). -/
abbrev Token := String

/-- The Python exceptions the embedded code can raise. -/
inductive PyErr where
  /-- raised by a failing `assert` statement -/
  | assertionError
  /-- raised by `x / y` with zero denominator -/
  | zeroDivisionError
  /-- raised on lookup of an undefined variable name -/
  | nameError
  /-- raised by `math.log` at 0 -/
  | valueError
deriving DecidableEq, Repr

/-- Embedding of a Python dict with integer values: `none` means the key is
absent. -/
abbrev PyDict := Token → Option Int

/-- Embedding of Python `dct.get(key, dflt)`. -/
def dget (d : PyDict) (k : Token) (dflt : Int) : Int := (d k).getD dflt

/-- Embedding of Python `dct[key] = v`. -/
def dset (d : PyDict) (k : Token) (v : Int) : PyDict :=
  fun t => if t = k then some v else d t

/-- source: store.py `HeapStore.__init__` — the volatile in-memory store:
two dicts plus the two global message counters. -/
structure HeapStore where
  spam : PyDict
  ham : PyDict
  nspam : Int
  nham : Int

/-- A fresh `HeapStore()`: empty dicts, zero counters. -/
def HeapStore.init : HeapStore :=
  { spam := fun _ => none, ham := fun _ => none, nspam := 0, nham := 0 }

/-- source: store.py `HeapStore._increment`:
`for key in keys: dct[key] = dct.get(key, 0) + 1`. -/
def increment (d : PyDict) (keys : List Token) : PyDict :=
  keys.foldl (fun d k => dset d k (dget d k 0 + 1)) d

/-- source: store.py `HeapStore._decrement`:
`for key in keys: if key in dct: dct[key] = dct.get(key, 0) - 1`.
Note the guard: absent keys are silently skipped, and present keys are
decremented unconditionally (possibly below zero). -/
def decrement (d : PyDict) (keys : List Token) : PyDict :=
  keys.foldl (fun d k => if (d k).isSome then dset d k (dget d k 0 - 1) else d) d

/-- source: store.py `HeapStore.get_nspam_nham`. -/
def HeapStore.get_nspam_nham (s : HeapStore) : Int × Int := (s.nspam, s.nham)

/-- source: store.py `HeapStore.get_token_counts` — the dict comprehension
`{w: (spam.get(w,0), ham.get(w,0)) for w in tokens if w in spam or w in ham}`,
embedded as the finite map it denotes. -/
def HeapStore.get_token_counts (s : HeapStore) (tokens : List Token) :
    Token → Option (Int × Int) :=
  fun w =>
    if w ∈ tokens ∧ ((s.spam w).isSome ∨ (s.ham w).isSome) then
      some (dget s.spam w 0, dget s.ham w 0)
    else none

/-- source: store.py `HeapStore.add_spam`. -/
def HeapStore.add_spam (s : HeapStore) (tokens : List Token) : HeapStore :=
  { s with spam := increment s.spam tokens, nspam := s.nspam + 1 }

/-- source: store.py `HeapStore.add_ham`. -/
def HeapStore.add_ham (s : HeapStore) (tokens : List Token) : HeapStore :=
  { s with ham := increment s.ham tokens, nham := s.nham + 1 }

/-- source: store.py `HeapStore.remove_spam`. -/
def HeapStore.remove_spam (s : HeapStore) (tokens : List Token) : HeapStore :=
  { s with spam := decrement s.spam tokens, nspam := s.nspam - 1 }

/-- source: store.py `HeapStore.remove_ham`. -/
def HeapStore.remove_ham (s : HeapStore) (tokens : List Token) : HeapStore :=
  { s with ham := decrement s.ham tokens, nham := s.nham - 1 }

/-- The durable store's table `tokens(token PRIMARY KEY, spam, ham)`:
a finite map from token to its (spam, ham) columns. -/
abbrev SqlDb := Token → Option (Int × Int)

namespace SqliteStore

/-- source: store.py `SqliteStore.DOC_COUNT_TOKEN` — the reserved sentinel
row whose columns double as the global (nspam, nham). -/
def DOC_COUNT_TOKEN : Token := " $DOC_COUNT$ "

/-- source: store.py `SqliteStore._upsert` — the atomic
`INSERT .. ON CONFLICT(token) DO UPDATE SET spam = spam + .., ham = ham + ..`
executed once per token. -/
def upsert (db : SqlDb) (tokens : List Token) (spamD hamD : Int) : SqlDb :=
  tokens.foldl
    (fun db t =>
      match db t with
      | some (s0, h0) => fun u => if u = t then some (s0 + spamD, h0 + hamD) else db u
      | none => fun u => if u = t then some (spamD, hamD) else db u)
    db

/-- source: store.py `SqliteStore._update`.  The body is broken twice over:
it passes the undefined variable name `keys` to `executemany` (the parameter
is called `tokens`), so Python raises `NameError` while evaluating the call's
arguments, before any SQL runs; and even the SQL text itself is malformed
(`SET spam = spam + .. ham = ham + ..` is missing the comma between the two
assignments).  Hence every call raises. -/
def update (_db : SqlDb) (_tokens : List Token) (_spamD _hamD : Int) :
    Except PyErr SqlDb :=
  .error .nameError

/-- source: store.py `SqliteStore.get_token_counts` —
`SELECT max(0, spam), max(0, ham) FROM tokens WHERE token = ?` per token. -/
def get_token_counts (db : SqlDb) (tokens : List Token) :
    Token → Option (Int × Int) :=
  fun w =>
    if w ∈ tokens then (db w).map (fun r => (max 0 r.1, max 0 r.2)) else none

/-- source: store.py `SqliteStore.get_nspam_nham` — read the sentinel row,
defaulting to `(0, 0)`.  In Python `if dc:` tests the tuple, and a non-empty
tuple (even `(0, 0)`) is truthy, so the default is only taken when the row is
absent — exactly `getD`; a present `(0, 0)` row coincides with the default
anyway. -/
def get_nspam_nham (db : SqlDb) : Int × Int :=
  ((get_token_counts db [DOC_COUNT_TOKEN]) DOC_COUNT_TOKEN).getD (0, 0)

/-- source: store.py `SqliteStore.add_spam`. -/
def add_spam (db : SqlDb) (tokens : List Token) : SqlDb :=
  upsert (upsert db tokens 1 0) [DOC_COUNT_TOKEN] 1 0

/-- source: store.py `SqliteStore.add_ham`. -/
def add_ham (db : SqlDb) (tokens : List Token) : SqlDb :=
  upsert (upsert db tokens 0 1) [DOC_COUNT_TOKEN] 0 1

/-- source: store.py `SqliteStore.remove_spam` — calls `self._update`, which
raises, so the following sentinel upsert is never reached. -/
def remove_spam (db : SqlDb) (tokens : List Token) : Except PyErr SqlDb :=
  (update db tokens (-1) 0).map (fun db2 => upsert db2 [DOC_COUNT_TOKEN] (-1) 0)

/-- source: store.py `SqliteStore.remove_ham` — likewise always raises. -/
def remove_ham (db : SqlDb) (tokens : List Token) : Except PyErr SqlDb :=
  (update db tokens 0 (-1)).map (fun db2 => upsert db2 [DOC_COUNT_TOKEN] 0 (-1))

end SqliteStore

/-- State-threaded computations over the mutable `HeapStore`, failing with a
Python exception: the embedding of a method call on a `Classifier` holding a
`HeapStore`.  The store component of the result is whatever store the Python
code leaves behind (exceptions do not roll anything back). -/
def StM (α : Type) := HeapStore → Except PyErr α × HeapStore

instance StM.instMonad : Monad StM where
  pure a := fun s => (.ok a, s)
  bind m f := fun s =>
    match m s with
    | (.ok a, s') => f a s'
    | (.error e, s') => (.error e, s')

/-- Embedding of a read-only store access: the Python body performs no
assignment, so the store passes through unchanged. -/
def StM.read {α : Type} (f : HeapStore → α) : StM α := fun s => (.ok (f s), s)

/-- Embedding of a pure fallible computation inside a method. -/
def StM.liftE {α : Type} (e : Except PyErr α) : StM α := fun s => (e, s)

/-- source: classifier.py `Classifier` class attributes — the tunable
configuration, overridable per instance (Python instances may shadow the
class attributes; spec section 4.2 makes the tunables explicit per-instance
configuration).  The float literals 0.45 etc. are idealised as the exact
rationals they denote. -/
structure Classifier where
  unknown_token_prob : ℚ := 1/2
  unknown_token_strength : ℚ := 9/20
  minimum_prob_strength : ℚ := 1/10
  ham_cutoff : ℚ := 1/5
  spam_cutoff : ℚ := 9/10
  max_discriminators : ℕ := 150

/-- A classifier with all tunables at the source defaults. -/
def defaultClassifier : Classifier := {}

/-- source: classifier.py `Classifier.probability`.  Reads `(nspam, nham)`
from the store; `nspam or 1.0` keeps a nonzero count and replaces 0 by 1.0
(`hamFrac`/`spamFrac` are the source's hamratio/spamratio).  The two
`assert` statements become `.error .assertionError`; the division
`spamratio / (hamratio + spamratio)` raises ZeroDivisionError in Python when
the denominator is zero (e.g. both counts zero), as does the final division
when `S + n = 0`. -/
def Classifier.probability (c : Classifier) (spamcount hamcount : Int) :
    StM ℚ := fun st =>
  let nspam0 := st.get_nspam_nham.1
  let nham0 := st.get_nspam_nham.2
  let nspam : ℚ := if (nspam0 : ℚ) = 0 then 1 else (nspam0 : ℚ)
  let nham : ℚ := if (nham0 : ℚ) = 0 then 1 else (nham0 : ℚ)
  if ¬ ((hamcount : ℚ) ≤ nham) then (.error .assertionError, st)
  else if ¬ ((spamcount : ℚ) ≤ nspam) then (.error .assertionError, st)
  else
    let hamFrac : ℚ := (hamcount : ℚ) / nham
    let spamFrac : ℚ := (spamcount : ℚ) / nspam
    if hamFrac + spamFrac = 0 then (.error .zeroDivisionError, st)
    else
      let prob := spamFrac / (hamFrac + spamFrac)
      let S := c.unknown_token_strength
      let StimesX := S * c.unknown_token_prob
      let n : ℚ := (hamcount : ℚ) + (spamcount : ℚ)
      if S + n = 0 then (.error .zeroDivisionError, st)
      else (.ok ((StimesX + n * prob) / (S + n)), st)

/-- source: classifier.py `Classifier._worddistanceget`.  A present counts
tuple is always truthy in Python (`if tup:` holds even for `(0, 0)`), so any
stored token goes through `probability`. -/
def Classifier.worddistanceget (c : Classifier)
    (counts : Token → Option (Int × Int)) (token : Token) :
    StM (ℚ × ℚ × Token) := do
  match counts token with
  | some (sc, hc) => do
      let prob ← c.probability sc hc
      pure (|prob - 1/2|, prob, token)
  | none => pure (|c.unknown_token_prob - 1/2|, c.unknown_token_prob, token)

/-- Stable insertion into a sorted list: `x` goes in front of the first
element it compares `le` to. -/
def pyInsert {α : Type} (le : α → α → Prop) [DecidableRel le] (x : α) :
    List α → List α
  | [] => [x]
  | y :: ys => if le x y then x :: y :: ys else y :: pyInsert le x ys

/-- Embedding of Python `list.sort` with comparison `le` (a stable ascending
sort; for the total preorders used in this file any stable sort, including
CPython's Timsort, produces this exact list). -/
def pySort {α : Type} (le : α → α → Prop) [DecidableRel le] : List α → List α
  | [] => []
  | x :: xs => pyInsert le x (pySort le xs)

/-- Python's ascending comparison on the `(distance, prob, token)` clue
triples: lexicographic, with strings compared by code point (Lean's
`String` order coincides). -/
def tripleLE (a b : ℚ × ℚ × Token) : Prop :=
  a.1 < b.1 ∨ (a.1 = b.1 ∧
    (a.2.1 < b.2.1 ∨ (a.2.1 = b.2.1 ∧ (a.2.2 < b.2.2 ∨ a.2.2 = b.2.2))))

instance : DecidableRel tripleLE := fun a b => by
  unfold tripleLE
  infer_instance

/-- source: classifier.py `Classifier._getclues`.  Deduplicate the tokens
(`set(tokens)`), batch-fetch counts, keep the triples whose distance from
neutral is at least `minimum_prob_strength`, sort the triples ascending
(`clues.sort()`), and return the first `max_discriminators` of them as
`(prob, token)` pairs (`clues[:self.max_discriminators]`).  Iteration order
over the Python set is immaterial: the comparison is total and the kept
triples are pairwise distinct, so the sorted list is unique. -/
def Classifier.getclues (c : Classifier) (tokens : List Token) :
    StM (List (ℚ × Token)) := do
  let toks := tokens.dedup
  let counts ← StM.read (fun st => st.get_token_counts toks)
  let clues ← toks.foldlM
    (fun clues token => do
      let tup ← c.worddistanceget counts token
      pure (if c.minimum_prob_strength ≤ tup.1 then clues ++ [tup] else clues))
    []
  pure (((pySort tripleLE clues).take c.max_discriminators).map
    (fun t => (t.2.1, t.2.2)))

/-- source: chi2.py `chi2Q` loop — starting from `sum = term = exp(-m)`,
`for i in range(1, v // 2): term *= m / i; sum += term`, returning the final
`(sum, term)` pair. -/
noncomputable def chi2Qloop (m : ℝ) (halfv : ℕ) : ℝ × ℝ :=
  (List.range' 1 (halfv - 1)).foldl
    (fun st (i : ℕ) => (st.1 + st.2 * (m / (i : ℝ)), st.2 * (m / (i : ℝ))))
    (Real.exp (-m), Real.exp (-m))

/-- source: chi2.py `chi2Q` value for even `v`: `m = x2 / 2.0`, run the term
loop, `return min(sum, 1.0)`. -/
noncomputable def chi2Qval (x2 : ℝ) (v : ℕ) : ℝ :=
  min (chi2Qloop (x2 / 2) (v / 2)).1 1

/-- source: chi2.py `chi2Q` — `assert v & 1 == 0` then the even-degree
series. -/
noncomputable def chi2Q (x2 : ℝ) (v : ℕ) : Except PyErr ℝ :=
  if v % 2 = 0 then .ok (chi2Qval x2 v) else .error .assertionError

/-- source: classifier.py `LN2 = math.log(2)`. -/
noncomputable def LN2 : ℝ := Real.log 2

/-- Embedding of C `frexp` in exact real arithmetic: split a nonzero `x`
into `mantissa * 2 ^ e` with `|mantissa| ∈ [1/2, 1)`; `frexp 0 = (0, 0)`. -/
noncomputable def frexp (x : ℝ) : ℝ × ℤ :=
  if x = 0 then (0, 0)
  else
    let e : ℤ := ⌊Real.logb 2 |x|⌋ + 1
    (x / 2 ^ e, e)

/-- The float literal `1e-200` guarding against product underflow,
idealised as the exact power of ten it denotes. -/
noncomputable def underflowGuard : ℝ := (10 : ℝ) ^ (-(200 : ℤ))

/-- Return shape of `Classifier.spamprob`: Python returns either the bare
probability, or the `(probability, evidence)` pair when `evidence=True`. -/
inductive SpamprobResult where
  | plain (prob : ℝ)
  | withEvidence (prob : ℝ) (evidence : List (Token × ℝ))

/-- The probability component of either return shape. -/
def SpamprobResult.prob : SpamprobResult → ℝ
  | .plain p => p
  | .withEvidence p _ => p

/-- One iteration of the spamprob accumulation loop for one clue probability
`p`: `S *= 1.0 - prob; H *= prob`, then each running product is frexp-rescaled
when it drops below `1e-200`.  State is `((S, Sexp), (H, Hexp))`. -/
noncomputable def spamprobStep (acc : (ℝ × ℤ) × (ℝ × ℤ)) (p : ℝ) :
    (ℝ × ℤ) × (ℝ × ℤ) :=
  let S1 := acc.1.1 * (1 - p)
  let H1 := acc.2.1 * p
  let Spair :=
    if S1 < underflowGuard then ((frexp S1).1, acc.1.2 + (frexp S1).2)
    else (S1, acc.1.2)
  let Hpair :=
    if H1 < underflowGuard then ((frexp H1).1, acc.2.2 + (frexp H1).2)
    else (H1, acc.2.2)
  (Spair, Hpair)

/-- source: classifier.py `Classifier.spamprob`.  Obtains the clues, folds
the underflow-guarded products over them, recovers the natural logs
(`math.log` raises ValueError on a non-positive argument), and for `n ≠ 0`
combines the two chi-squared tail probabilities into `(S - H + 1) / 2`;
for `n = 0` the result is exactly `0.5`.  With `evidence=True` the
`(token, prob)` list is sorted ascending by probability (on the exact
rational clue values — the cast to `ℝ` is order-preserving) and prefixed
with the `"*H*"` and `"*S*"` diagnostic entries, which for `n = 0` carry the
log values, as in the source. -/
noncomputable def Classifier.spamprob (c : Classifier) (tokens : List Token)
    (evidence : Bool) : StM SpamprobResult := do
  let clues ← c.getclues tokens
  let acc := clues.foldl (fun acc pw => spamprobStep acc ((pw.1 : ℝ))) ((1, 0), (1, 0))
  if acc.1.1 ≤ 0 ∨ acc.2.1 ≤ 0 then
    StM.liftE (.error .valueError)
  else do
    let Slog := Real.log acc.1.1 + (acc.1.2 : ℝ) * LN2
    let Hlog := Real.log acc.2.1 + (acc.2.2 : ℝ) * LN2
    let n := clues.length
    let SH ←
      if n ≠ 0 then do
        let Sq ← StM.liftE (chi2Q (-2 * Slog) (2 * n))
        let Hq ← StM.liftE (chi2Q (-2 * Hlog) (2 * n))
        pure (1 - Sq, 1 - Hq, (1 - Sq - (1 - Hq) + 1) / 2)
      else
        pure (Slog, Hlog, (1 / 2 : ℝ))
    if evidence then
      let sorted := pySort (fun a b => a.2 ≤ b.2)
        (clues.map (fun pw => (pw.2, pw.1)))
      pure (.withEvidence SH.2.2
        (("*H*", SH.2.1) :: ("*S*", SH.1) ::
          sorted.map (fun wp => (wp.1, ((wp.2 : ℚ) : ℝ)))))
    else
      pure (.plain SH.2.2)

deriving instance DecidableEq for Except

/-- Run a method body on a given starting store, yielding the Python result
(value or exception) together with the store it leaves behind. -/
def StM.run {α : Type} (m : StM α) (s : HeapStore) :
    Except PyErr α × HeapStore := m s

/-- A computation preserves the store: no branch writes to it. -/
def StM.preserves {α : Type} (m : StM α) : Prop := ∀ s, (m s).2 = s

lemma StM.preserves_pure {α : Type} (a : α) :
    StM.preserves (pure a : StM α) := fun _ => rfl

lemma StM.preserves_read {α : Type} (f : HeapStore → α) :
    StM.preserves (StM.read f) := fun _ => rfl

lemma StM.preserves_liftE {α : Type} (e : Except PyErr α) :
    StM.preserves (StM.liftE e) := fun _ => rfl

lemma StM.preserves_bind {α β : Type} {m : StM α} {f : α → StM β}
    (hm : StM.preserves m) (hf : ∀ a, StM.preserves (f a)) :
    StM.preserves (m >>= f) := by
  intro s
  show ((m >>= f) s).2 = s
  simp only [Bind.bind, Monad.toBind, StM.instMonad]
  have hs := hm s
  rcases hms : m s with ⟨e, s2⟩
  rw [hms] at hs
  cases e with
  | ok a =>
    dsimp only at hs ⊢
    exact (hf a s2).trans hs
  | error e =>
    dsimp only at hs ⊢
    exact hs

lemma StM.preserves_foldlM {α β : Type} {f : β → α → StM β}
    (hf : ∀ b a, StM.preserves (f b a)) (l : List α) (b : β) :
    StM.preserves (l.foldlM f b) := by
  induction l generalizing b with
  | nil => exact StM.preserves_pure b
  | cons x xs ih =>
    rw [List.foldlM_cons]
    exact StM.preserves_bind (hf b x) (fun b2 => ih b2)

lemma Classifier.probability_preserves (c : Classifier) (sc hc : Int) :
    StM.preserves (c.probability sc hc) := by
  intro s
  unfold Classifier.probability
  dsimp only
  split_ifs <;> rfl

lemma Classifier.worddistanceget_preserves (c : Classifier)
    (counts : Token → Option (Int × Int)) (token : Token) :
    StM.preserves (c.worddistanceget counts token) := by
  unfold Classifier.worddistanceget
  cases h : counts token with
  | none => exact StM.preserves_pure _
  | some p =>
    exact StM.preserves_bind (c.probability_preserves p.1 p.2)
      (fun prob => StM.preserves_pure _)

lemma Classifier.getclues_preserves (c : Classifier) (tokens : List Token) :
    StM.preserves (c.getclues tokens) := by
  unfold Classifier.getclues
  refine StM.preserves_bind (StM.preserves_read _) (fun counts => ?_)
  refine StM.preserves_bind
    (StM.preserves_foldlM (fun cl tok => ?_) _ []) (fun clues => StM.preserves_pure _)
  exact StM.preserves_bind (c.worddistanceget_preserves counts tok)
    (fun tup => StM.preserves_pure _)

lemma Classifier.spamprob_preserves (c : Classifier) (tokens : List Token)
    (evidence : Bool) : StM.preserves (c.spamprob tokens evidence) := by
  unfold Classifier.spamprob
  refine StM.preserves_bind (c.getclues_preserves tokens) (fun clues => ?_)
  dsimp only
  split_ifs <;>
    first
      | exact StM.preserves_liftE _
      | exact StM.preserves_pure _
      | (refine StM.preserves_bind (StM.preserves_liftE _) (fun Sq => ?_)
         refine StM.preserves_bind (StM.preserves_liftE _) (fun Hq => ?_)
         exact StM.preserves_bind (StM.preserves_pure _)
           (fun y => StM.preserves_pure _))

lemma StM.run_eq_of_preserves {α : Type} {m : StM α} (hp : StM.preserves m)
    {s : HeapStore} {x : Except PyErr α} (h : (m.run s).1 = x) :
    m s = (x, s) := by
  rcases hx : m s with ⟨e, s2⟩
  have h2 : s2 = s := by
    have hps := hp s
    rw [hx] at hps
    exact hps
  have h1 : e = x := by
    have hh := h
    simp only [StM.run] at hh
    rw [hx] at hh
    exact hh
  rw [h1, h2]

/-- C10: classification is read-only — for every classifier configuration,
store state and token stream, with or without evidence requested,
`spamprob` leaves the `HeapStore` (every token's counts and both global
totals) exactly as it found it. -/
theorem spamprob_readonly (c : Classifier) (tokens : List Token)
    (evidence : Bool) (s : HeapStore) :
    ((c.spamprob tokens evidence).run s).2 = s :=
  c.spamprob_preserves tokens evidence s

/-- C9: whenever `_getclues` yields no clues, `spamprob` returns exactly
`0.5` (in both evidence modes); the empty-token-stream case is the witness
below. -/
theorem spamprob_no_clues_half (c : Classifier) (s : HeapStore)
    (tokens : List Token) (evidence : Bool)
    (h : ((c.getclues tokens).run s).1 = .ok []) :
    (((c.spamprob tokens evidence).run s).1).map SpamprobResult.prob
      = .ok (1/2) := by
  have hrun : c.getclues tokens s = (.ok [], s) :=
    StM.run_eq_of_preserves (c.getclues_preserves tokens) h
  show ((c.spamprob tokens evidence s).1).map SpamprobResult.prob = .ok (1/2)
  unfold Classifier.spamprob
  simp only [Bind.bind, Monad.toBind, StM.instMonad]
  rw [hrun]
  dsimp only [List.foldl_nil, List.length_nil]
  rw [if_neg (by norm_num : ¬ ((1:ℝ) ≤ 0 ∨ (1:ℝ) ≤ 0))]
  rw [if_neg (by simp : ¬ ((0:ℕ) ≠ 0))]
  cases evidence <;> rfl

/-- Witness for C9 at the concrete input of the claim: a fresh store and the
empty token stream produce no clues and a spam probability of exactly 0.5. -/
theorem spamprob_no_clues_half_witness :
    ((defaultClassifier.getclues []).run HeapStore.init).1 = .ok []
    ∧ (((defaultClassifier.spamprob [] false).run HeapStore.init).1).map
        SpamprobResult.prob = .ok (1/2) :=
  ⟨rfl, spamprob_no_clues_half defaultClassifier HeapStore.init [] false rfl⟩

lemma decrement_apply (keys : List Token) (d : PyDict) (w : Token) :
    decrement d keys w = (d w).map (fun c => c - (keys.count w : Int)) := by
  induction keys generalizing d with
  | nil => cases h : d w <;> simp [decrement, h]
  | cons k ks ih =>
    show decrement (if (d k).isSome then dset d k (dget d k 0 - 1) else d) ks w = _
    rw [ih]
    cases hk : d k with
    | none =>
      rw [if_neg (by simp [hk])]
      cases hw : d w with
      | none => simp
      | some c0 =>
        have hwk : ¬ (k = w) := fun he => by rw [he, hw] at hk; exact Option.noConfusion hk
        simp [List.count_cons, hwk]
    | some c0 =>
      rw [if_pos (by simp [hk])]
      by_cases hwk : w = k
      · subst hwk
        simp [dset, dget, hk, List.count_cons]
        omega
      · have : dset d k (dget d k 0 - 1) w = d w := by
          simp [dset, hwk]
        rw [this]
        cases hw : d w with
        | none => simp
        | some c1 =>
          have hkw : ¬ (k = w) := fun he => hwk he.symm
          simp [List.count_cons, hkw]

lemma increment_apply (keys : List Token) (d : PyDict) (w : Token) :
    increment d keys w =
      if keys.count w = 0 then d w else some (dget d w 0 + (keys.count w : Int)) := by
  induction keys generalizing d with
  | nil => simp [increment]
  | cons k ks ih =>
    show increment (dset d k (dget d k 0 + 1)) ks w = _
    rw [ih]
    by_cases hwk : w = k
    · subst hwk
      rw [List.count_cons_self, if_neg (Nat.succ_ne_zero _)]
      by_cases h0 : ks.count w = 0
      · rw [if_pos h0]
        simp [dset, dget, h0]
      · rw [if_neg h0]
        simp [dset, dget]
        ring
    · have hset : dset d k ((d k).getD 0 + 1) w = d w := by
        simp [dset, hwk]
      rw [List.count_cons_of_ne hwk]
      simp only [dget] at hset ⊢
      rw [hset]

/-- C2: the claim says `probability(0, 0)` returns `unknown_token_prob`; in
fact, for every store with non-negative global counts, the code computes
`spamratio / (hamratio + spamratio) = 0.0 / 0.0` and raises
ZeroDivisionError before the Bayesian adjustment is ever reached. -/
theorem probability_zero_zero_raises (c : Classifier) (s : HeapStore)
    (h1 : 0 ≤ s.nspam) (h2 : 0 ≤ s.nham) :
    ((c.probability 0 0).run s).1 = .error .zeroDivisionError := by
  have hnh : (0:ℚ) ≤ (if ((s.nham : ℚ)) = 0 then 1 else (s.nham : ℚ)) := by
    split_ifs with h
    · norm_num
    · exact_mod_cast h2
  have hns : (0:ℚ) ≤ (if ((s.nspam : ℚ)) = 0 then 1 else (s.nspam : ℚ)) := by
    split_ifs with h
    · norm_num
    · exact_mod_cast h1
  show ((c.probability 0 0) s).1 = _
  unfold Classifier.probability
  simp only [HeapStore.get_nspam_nham, Int.cast_zero, zero_div, add_zero, zero_add]
  rw [if_neg (not_not_intro hnh), if_neg (not_not_intro hns)]
  simp

/-- Witness for C2 at the concrete failing input: the fresh store. -/
theorem probability_zero_zero_raises_witness :
    (0:Int) ≤ HeapStore.init.nspam ∧ (0:Int) ≤ HeapStore.init.nham
    ∧ ((defaultClassifier.probability 0 0).run HeapStore.init).1
        = .error .zeroDivisionError :=
  ⟨by decide, by decide,
   probability_zero_zero_raises defaultClassifier HeapStore.init
     (by decide) (by decide)⟩

/-- C4 counterexample: on the fresh store (`nspam = nham = 0`) the call
`probability(0, 1)` has `hamcount = 1 > nham = 0` — a count-invariant
violation — yet no error is raised: the code first replaces the zero totals
by 1 (`nham or 1.0`), the assert `1 ≤ 1` passes, and the value
`(0.45·0.5 + 1·0) / (0.45 + 1) = 9/58` is returned. -/
theorem probability_invariant_violation_unchecked_cx :
    (1:Int) > HeapStore.init.nham
    ∧ ((defaultClassifier.probability 0 1).run HeapStore.init).1 = .ok (9/58) :=
  ⟨by decide, by
    norm_num [Classifier.probability, StM.run, HeapStore.init,
      HeapStore.get_nspam_nham, defaultClassifier]⟩

/-- C4 amended: `probability` raises AssertionError exactly relative to the
coerced totals — whenever `hamcount` exceeds `nham` *after replacing a zero
`nham` by 1* (and likewise for spam).  Violations of the raw invariant that
fall inside that slack (`hamcount = 1 > nham = 0`) are not detected. -/
theorem probability_assert_vs_coerced (c : Classifier) (s : HeapStore)
    (sc hc : Int)
    (h : ((hc : ℚ) > (if ((s.nham : ℚ)) = 0 then 1 else (s.nham : ℚ)))
       ∨ ((sc : ℚ) > (if ((s.nspam : ℚ)) = 0 then 1 else (s.nspam : ℚ)))) :
    ((c.probability sc hc).run s).1 = .error .assertionError := by
  show ((c.probability sc hc) s).1 = _
  unfold Classifier.probability
  dsimp only [HeapStore.get_nspam_nham]
  by_cases hA : (hc : ℚ) ≤ (if ((s.nham : ℚ)) = 0 then 1 else (s.nham : ℚ))
  · rw [if_neg (not_not_intro hA)]
    have hsc : (sc : ℚ) > (if ((s.nspam : ℚ)) = 0 then 1 else (s.nspam : ℚ)) := by
      rcases h with h | h
      · exact absurd hA (not_le.mpr h)
      · exact h
    rw [if_pos (not_le.mpr hsc)]
  · rw [if_pos hA]

/-- Witness for C4's amended theorem: with one trained ham message
(`nham = 1`), `probability(0, 2)` trips the assert. -/
theorem probability_assert_vs_coerced_witness :
    (((2:Int) : ℚ) > (if (((HeapStore.init.add_ham []).nham : ℚ)) = 0 then 1
        else ((HeapStore.init.add_ham []).nham : ℚ))
    ∧ ((defaultClassifier.probability 0 2).run (HeapStore.init.add_ham [])).1
        = .error .assertionError) := by
  have hgt : (((2:Int) : ℚ) > (if (((HeapStore.init.add_ham []).nham : ℚ)) = 0
      then 1 else ((HeapStore.init.add_ham []).nham : ℚ))) := by
    norm_num [HeapStore.add_ham, HeapStore.init]
  exact ⟨hgt, probability_assert_vs_coerced defaultClassifier
    (HeapStore.init.add_ham []) 0 2 (Or.inl hgt)⟩

/-- C3: the durable store's remove operations are not the inverse of the
adds — they cannot run at all.  `SqliteStore._update` refers to the
undefined variable `keys` (and its SQL is missing a comma), so after any
`add_spam`, `remove_spam` raises NameError instead of decrementing; the ham
side fails identically. -/
theorem sqlite_remove_after_add_raises (db : SqlDb) (T : List Token) :
    SqliteStore.remove_spam (SqliteStore.add_spam db T) T = .error .nameError
    ∧ SqliteStore.remove_ham (SqliteStore.add_ham db T) T
        = .error .nameError :=
  ⟨rfl, rfl⟩

/-- C5 counterexample: removing the never-trained token "a" from a fresh
volatile store neither raises nor signals anything — the token is silently
skipped (it stays absent) while `nspam` is still decremented to `-1`; the
ham side behaves the same. -/
theorem heap_remove_untrained_silent_cx :
    (HeapStore.init.remove_spam ["a"]).nspam = -1
    ∧ (HeapStore.init.remove_spam ["a"]).spam "a" = none
    ∧ (HeapStore.init.remove_ham ["a"]).nham = -1
    ∧ (HeapStore.init.remove_ham ["a"]).ham "a" = none := by
  refine ⟨by decide, ?_, by decide, ?_⟩ <;> rfl

/-- C5 amended: `remove_spam`/`remove_ham` on the volatile store are total
and silent — a token not in the dict is skipped (even stays absent), a
present token is decremented by its multiplicity even to or below zero, and
the global counter is decremented unconditionally; no error of any kind is
signalled. -/
theorem heap_remove_silent_amended (s : HeapStore) (T : List Token)
    (w : Token) :
    (s.remove_spam T).spam w = (s.spam w).map (fun c => c - (T.count w : Int))
    ∧ (s.remove_spam T).nspam = s.nspam - 1
    ∧ (s.remove_spam T).ham w = s.ham w
    ∧ (s.remove_ham T).ham w = (s.ham w).map (fun c => c - (T.count w : Int))
    ∧ (s.remove_ham T).nham = s.nham - 1
    ∧ (s.remove_ham T).spam w = s.spam w :=
  ⟨decrement_apply T s.spam w, rfl, rfl, decrement_apply T s.ham w, rfl, rfl⟩

/-- C6: on the volatile store, `add_spam T` then `remove_spam T` is a true
round trip at the level of counts: every token's spam count and ham count
(`dict.get(w, 0)` view) and both global totals return to their prior
values.  (The only residue is invisible to counts: a token first trained by
the `add` remains as a key with value 0 rather than being deleted.) -/
theorem heap_add_remove_roundtrip (s : HeapStore) (T : List Token) :
    (∀ w, dget ((s.add_spam T).remove_spam T).spam w 0 = dget s.spam w 0)
    ∧ (∀ w, dget ((s.add_spam T).remove_spam T).ham w 0 = dget s.ham w 0)
    ∧ ((s.add_spam T).remove_spam T).nspam = s.nspam
    ∧ ((s.add_spam T).remove_spam T).nham = s.nham := by
  refine ⟨fun w => ?_, fun w => rfl, by simp [HeapStore.remove_spam,
    HeapStore.add_spam], rfl⟩
  show dget (decrement (increment s.spam T) T) w 0 = dget s.spam w 0
  unfold dget
  rw [decrement_apply, increment_apply]
  by_cases h0 : T.count w = 0
  · rw [if_pos h0, h0]
    cases s.spam w <;> simp
  · rw [if_neg h0]
    simp [dget]

/-- A trained store exhibiting the discriminator-selection bug: with
`nspam = 2, nham = 1`, token "a" (counts 2 spam, 0 ham) scores
`89/98 ≈ 0.908` (distance `20/49 ≈ 0.41` from neutral) and token "b"
(counts 1 and 1) scores `107/294 ≈ 0.364` (distance `20/147 ≈ 0.14`). -/
def sBug : HeapStore :=
  { spam := fun t => if t = "a" then some 2 else if t = "b" then some 1 else none,
    ham := fun t => if t = "b" then some 1 else none,
    nspam := 2, nham := 1 }

/-- A classifier whose discriminator cap is 1 (the cap is per-instance
configuration; the stock value is 150). -/
def cBug : Classifier := { max_discriminators := 1 }

/-- C1: the claim (and the source's own doc comment on `_getclues`, lines
185-191) requires keeping the `max_discriminators` clues with the LARGEST
`|p - 0.5|`; the code instead sorts ascending and keeps the FIRST slice
(`clues[:max_discriminators]`), i.e. the weakest.  Here both tokens clear
`minimum_prob_strength`, there are more informative tokens (2) than the cap
(1), and the kept clue is "b" — the token with the strictly smaller
distance — while the strongest token "a" is dropped. -/
theorem getclues_keeps_weakest_cx :
    cBug.max_discriminators = 1
    ∧ ((cBug.getclues ["a", "b"]).run sBug).1 = .ok [(107/294, "b")]
    ∧ cBug.minimum_prob_strength ≤ |(89/98 : ℚ) - 1/2|
    ∧ cBug.minimum_prob_strength ≤ |(107/294 : ℚ) - 1/2|
    ∧ |(107/294 : ℚ) - 1/2| < |(89/98 : ℚ) - 1/2| := by
  refine ⟨rfl, ?_, ?_, ?_, ?_⟩
  · norm_num +decide [Classifier.getclues, StM.run, StM.read, sBug, cBug,
      HeapStore.get_token_counts, Classifier.worddistanceget,
      Classifier.probability, HeapStore.get_nspam_nham, dget,
      List.dedup_cons_of_not_mem, List.dedup_nil, List.foldlM, bind, pure,
      Monad.toBind, pySort, pyInsert, tripleLE, abs_of_nonneg]
  · rw [abs_of_nonneg (by norm_num : (0:ℚ) ≤ 89/98 - 1/2)]
    norm_num [cBug]
  · rw [abs_of_nonpos (by norm_num : (107/294 : ℚ) - 1/2 ≤ 0)]
    norm_num [cBug]
  · rw [abs_of_nonneg (by norm_num : (0:ℚ) ≤ 89/98 - 1/2),
      abs_of_nonpos (by norm_num : (107/294 : ℚ) - 1/2 ≤ 0)]
    norm_num

/-- One store training operation, each carrying the (deduplicated) token set
of one message. -/
inductive StoreOp where
  | addSpam (T : List Token)
  | addHam (T : List Token)
  | removeSpam (T : List Token)
  | removeHam (T : List Token)

/-- Apply one operation to the volatile store. -/
def applyOp (s : HeapStore) : StoreOp → HeapStore
  | .addSpam T => s.add_spam T
  | .addHam T => s.add_ham T
  | .removeSpam T => s.remove_spam T
  | .removeHam T => s.remove_ham T

/-- Run a sequence of operations from a fresh store. -/
def runOps (ops : List StoreOp) : HeapStore := ops.foldl applyOp HeapStore.init

/-- Well-formedness relative to the outstanding (added, not yet removed)
spam and ham token sets `os`/`oh`: every add trains a duplicate-free token
set, and every remove retracts one outstanding set of the matching kind. -/
def wfFrom (os oh : List (List Token)) : List StoreOp → Bool
  | [] => true
  | .addSpam T :: rest => decide T.Nodup && wfFrom (T :: os) oh rest
  | .addHam T :: rest => decide T.Nodup && wfFrom os (T :: oh) rest
  | .removeSpam T :: rest => decide (T ∈ os) && wfFrom (os.erase T) oh rest
  | .removeHam T :: rest => decide (T ∈ oh) && wfFrom os (oh.erase T) rest

/-- Well-formedness of a whole history: every remove retracts a token set
previously passed to the matching add and not yet removed. -/
def wfOps (ops : List StoreOp) : Bool := wfFrom [] [] ops

/-- How many of the outstanding sets contain `w` (counted with the
multiplicity of `w` in each set; for duplicate-free sets this is the number
of sets containing `w`). -/
def countIn (os : List (List Token)) (w : Token) : ℕ :=
  (os.map (fun T => T.count w)).sum

lemma countIn_cons (T : List Token) (os : List (List Token)) (w : Token) :
    countIn (T :: os) w = T.count w + countIn os w := by
  simp [countIn]

lemma perm_cons_erase_beq {α : Type} [BEq α] [LawfulBEq α] {a : α}
    {l : List α} (h : a ∈ l) : l.Perm (a :: l.erase a) := by
  induction l with
  | nil => cases h
  | cons b l ih =>
    by_cases hba : b = a
    · subst hba
      simp [List.erase_cons]
    · rw [List.erase_cons, if_neg (by simp [hba])]
      have hmem : a ∈ l := by
        rcases List.mem_cons.mp h with h1 | h1
        · exact absurd h1.symm hba
        · exact h1
      exact ((ih hmem).cons b).trans (List.Perm.swap a b _)

lemma countIn_of_mem_erase {T : List Token} {os : List (List Token)}
    (h : T ∈ os) (w : Token) :
    countIn os w = T.count w + countIn (os.erase T) w := by
  have hp : os.Perm (T :: os.erase T) := perm_cons_erase_beq h
  have hsum := (hp.map (fun T => T.count w)).sum_eq
  unfold countIn
  rw [hsum]
  simp

lemma countIn_le_length (os : List (List Token))
    (h : ∀ T ∈ os, T.Nodup) (w : Token) : countIn os w ≤ os.length := by
  induction os with
  | nil => simp [countIn]
  | cons T os ih =>
    rw [countIn_cons]
    have h1 : T.count w ≤ 1 :=
      List.nodup_iff_count_le_one.mp (h T (by simp)) w
    have h2 : countIn os w ≤ os.length := ih (fun U hU => h U (by simp [hU]))
    simp only [List.length_cons]
    omega

lemma dget_increment (d : PyDict) (T : List Token) (w : Token) :
    dget (increment d T) w 0 = dget d w 0 + (T.count w : Int) := by
  unfold dget
  rw [increment_apply]
  by_cases h : T.count w = 0
  · simp [h]
  · rw [if_neg h]
    simp [dget]

/-- The inductive invariant tying a store to its outstanding histories. -/
def heapInv (s : HeapStore) (os oh : List (List Token)) : Prop :=
  (∀ w, dget s.spam w 0 = (countIn os w : Int)
      ∧ dget s.ham w 0 = (countIn oh w : Int))
  ∧ s.nspam = (os.length : Int) ∧ s.nham = (oh.length : Int)
  ∧ (∀ T ∈ os, T.Nodup) ∧ (∀ T ∈ oh, T.Nodup)

lemma heapInv_addSpam {s : HeapStore} {os oh : List (List Token)}
    {T : List Token} (h : heapInv s os oh) (hnd : T.Nodup) :
    heapInv (s.add_spam T) (T :: os) oh := by
  obtain ⟨hc, hns, hnh, hnodS, hnodH⟩ := h
  refine ⟨fun w => ⟨?_, (hc w).2⟩, ?_, hnh, ?_, hnodH⟩
  · show dget (increment s.spam T) w 0 = _
    rw [dget_increment, (hc w).1, countIn_cons]
    push_cast
    ring
  · show s.nspam + 1 = _
    rw [hns]
    simp [List.length_cons]
  · intro U hU
    rcases List.mem_cons.mp hU with h | h
    · rw [h]; exact hnd
    · exact hnodS U h

lemma heapInv_addHam {s : HeapStore} {os oh : List (List Token)}
    {T : List Token} (h : heapInv s os oh) (hnd : T.Nodup) :
    heapInv (s.add_ham T) os (T :: oh) := by
  obtain ⟨hc, hns, hnh, hnodS, hnodH⟩ := h
  refine ⟨fun w => ⟨(hc w).1, ?_⟩, hns, ?_, hnodS, ?_⟩
  · show dget (increment s.ham T) w 0 = _
    rw [dget_increment, (hc w).2, countIn_cons]
    push_cast
    ring
  · show s.nham + 1 = _
    rw [hnh]
    simp [List.length_cons]
  · intro U hU
    rcases List.mem_cons.mp hU with h | h
    · rw [h]; exact hnd
    · exact hnodH U h

lemma dget_decrement_of_counted {d : PyDict} {T : List Token} {w : Token}
    {n : ℕ} (hd : dget d w 0 = (n : Int)) (hge : T.count w ≤ n) :
    dget (decrement d T) w 0 = ((n - T.count w : ℕ) : Int) := by
  unfold dget
  rw [decrement_apply]
  cases hw : d w with
  | none =>
    have : n = 0 := by
      unfold dget at hd
      rw [hw] at hd
      simpa using hd.symm
    subst this
    have : T.count w = 0 := Nat.le_zero.mp hge
    simp [this]
  | some c =>
    have hc : c = (n : Int) := by
      unfold dget at hd
      rw [hw] at hd
      simpa using hd
    subst hc
    simp only [Option.map_some', Option.getD_some]
    omega

lemma heapInv_removeSpam {s : HeapStore} {os oh : List (List Token)}
    {T : List Token} (h : heapInv s os oh) (hmem : T ∈ os) :
    heapInv (s.remove_spam T) (os.erase T) oh := by
  obtain ⟨hc, hns, hnh, hnodS, hnodH⟩ := h
  have hlen : 1 ≤ os.length := List.length_pos.mpr (List.ne_nil_of_mem hmem)
  refine ⟨fun w => ⟨?_, (hc w).2⟩, ?_, hnh, ?_, hnodH⟩
  · show dget (decrement s.spam T) w 0 = _
    have hsplit := countIn_of_mem_erase hmem w
    have hge : T.count w ≤ countIn os w := by omega
    rw [dget_decrement_of_counted (hc w).1 hge]
    congr 1
    omega
  · show s.nspam - 1 = _
    rw [hns, List.length_erase_of_mem hmem]
    push_cast [Nat.cast_sub hlen]
    ring
  · exact fun U hU => hnodS U (List.mem_of_mem_erase hU)

lemma heapInv_removeHam {s : HeapStore} {os oh : List (List Token)}
    {T : List Token} (h : heapInv s os oh) (hmem : T ∈ oh) :
    heapInv (s.remove_ham T) os (oh.erase T) := by
  obtain ⟨hc, hns, hnh, hnodS, hnodH⟩ := h
  have hlen : 1 ≤ oh.length := List.length_pos.mpr (List.ne_nil_of_mem hmem)
  refine ⟨fun w => ⟨(hc w).1, ?_⟩, hns, ?_, hnodS, ?_⟩
  · show dget (decrement s.ham T) w 0 = _
    have hsplit := countIn_of_mem_erase hmem w
    have hge : T.count w ≤ countIn oh w := by omega
    rw [dget_decrement_of_counted (hc w).2 hge]
    congr 1
    omega
  · show s.nham - 1 = _
    rw [hnh, List.length_erase_of_mem hmem]
    push_cast [Nat.cast_sub hlen]
    ring
  · exact fun U hU => hnodH U (List.mem_of_mem_erase hU)

lemma wfFrom_foldl_inv (ops : List StoreOp) :
    ∀ (os oh : List (List Token)) (s : HeapStore),
      wfFrom os oh ops = true → heapInv s os oh →
      ∃ os2 oh2, heapInv (ops.foldl applyOp s) os2 oh2 := by
  induction ops with
  | nil => exact fun os oh s _ hinv => ⟨os, oh, hinv⟩
  | cons op rest ih =>
    intro os oh s hwf hinv
    cases op with
    | addSpam T =>
      rw [wfFrom, Bool.and_eq_true, decide_eq_true_eq] at hwf
      exact ih (T :: os) oh (s.add_spam T) hwf.2 (heapInv_addSpam hinv hwf.1)
    | addHam T =>
      rw [wfFrom, Bool.and_eq_true, decide_eq_true_eq] at hwf
      exact ih os (T :: oh) (s.add_ham T) hwf.2 (heapInv_addHam hinv hwf.1)
    | removeSpam T =>
      rw [wfFrom, Bool.and_eq_true, decide_eq_true_eq] at hwf
      exact ih (os.erase T) oh (s.remove_spam T) hwf.2
        (heapInv_removeSpam hinv hwf.1)
    | removeHam T =>
      rw [wfFrom, Bool.and_eq_true, decide_eq_true_eq] at hwf
      exact ih os (oh.erase T) (s.remove_ham T) hwf.2
        (heapInv_removeHam hinv hwf.1)

/-- C7: starting from a fresh volatile store, any operation sequence in
which every remove retracts a token set previously added (and not yet
removed) leaves the store satisfying, for every token,
`0 ≤ hamcount ≤ nham` and `0 ≤ spamcount ≤ nspam`. -/
theorem heap_wf_ops_invariant (ops : List StoreOp) (h : wfOps ops = true)
    (w : Token) :
    0 ≤ dget (runOps ops).ham w 0
    ∧ dget (runOps ops).ham w 0 ≤ (runOps ops).nham
    ∧ 0 ≤ dget (runOps ops).spam w 0
    ∧ dget (runOps ops).spam w 0 ≤ (runOps ops).nspam := by
  have hinit : heapInv HeapStore.init [] [] :=
    ⟨fun w => ⟨rfl, rfl⟩, rfl, rfl, by simp, by simp⟩
  obtain ⟨os2, oh2, hinv⟩ := wfFrom_foldl_inv ops [] [] HeapStore.init h hinit
  obtain ⟨hc, hns, hnh, hnodS, hnodH⟩ := hinv
  unfold runOps
  have h1 := (hc w).1
  have h2 := (hc w).2
  have hbs := countIn_le_length os2 hnodS w
  have hbh := countIn_le_length oh2 hnodH w
  refine ⟨?_, ?_, ?_, ?_⟩ <;>
    first
      | (rw [h2]; positivity)
      | (rw [h2, hnh]; exact_mod_cast hbh)
      | (rw [h1]; positivity)
      | (rw [h1, hns]; exact_mod_cast hbs)

/-- Witness for C7: a concrete well-formed history — train a spam set and a
ham set, retract the spam set — and the bounds at token "x". -/
theorem heap_wf_ops_invariant_witness :
    wfOps [StoreOp.addSpam ["x", "y"], StoreOp.addHam ["x"],
      StoreOp.removeSpam ["x", "y"]] = true
    ∧ (0 ≤ dget (runOps [StoreOp.addSpam ["x", "y"], StoreOp.addHam ["x"],
        StoreOp.removeSpam ["x", "y"]]).ham "x" 0
      ∧ dget (runOps [StoreOp.addSpam ["x", "y"], StoreOp.addHam ["x"],
          StoreOp.removeSpam ["x", "y"]]).ham "x" 0
        ≤ (runOps [StoreOp.addSpam ["x", "y"], StoreOp.addHam ["x"],
            StoreOp.removeSpam ["x", "y"]]).nham
      ∧ 0 ≤ dget (runOps [StoreOp.addSpam ["x", "y"], StoreOp.addHam ["x"],
          StoreOp.removeSpam ["x", "y"]]).spam "x" 0
      ∧ dget (runOps [StoreOp.addSpam ["x", "y"], StoreOp.addHam ["x"],
          StoreOp.removeSpam ["x", "y"]]).spam "x" 0
        ≤ (runOps [StoreOp.addSpam ["x", "y"], StoreOp.addHam ["x"],
            StoreOp.removeSpam ["x", "y"]]).nspam) :=
  ⟨by decide,
   heap_wf_ops_invariant [StoreOp.addSpam ["x", "y"], StoreOp.addHam ["x"],
     StoreOp.removeSpam ["x", "y"]] (by decide) "x"⟩

lemma chi2Qloop_aux (m : ℝ) : ∀ n : ℕ,
    (List.range' 1 n).foldl
      (fun st (i : ℕ) => (st.1 + st.2 * (m / (i : ℝ)), st.2 * (m / (i : ℝ))))
      (Real.exp (-m), Real.exp (-m))
    = (Real.exp (-m) * ∑ i in Finset.range (n + 1), m ^ i / (Nat.factorial i : ℝ),
       Real.exp (-m) * (m ^ n / (Nat.factorial n : ℝ))) := by
  intro n
  induction n with
  | zero => simp [Finset.sum_range_one]
  | succ n ih =>
    rw [List.range'_concat, List.foldl_append, ih]
    have hfact : ((Nat.factorial n : ℝ)) ≠ 0 :=
      Nat.cast_ne_zero.mpr (Nat.factorial_ne_zero n)
    have hsucc : ((Nat.factorial (n + 1) : ℝ)) = (n + 1) * (Nat.factorial n : ℝ) := by
      rw [Nat.factorial_succ]
      push_cast
      ring
    have hn1 : ((n : ℝ) + 1) ≠ 0 := by positivity
    simp only [List.foldl_cons, List.foldl_nil]
    rw [Prod.mk.injEq]
    constructor
    · rw [Finset.sum_range_succ, Finset.sum_range_succ, Finset.sum_range_succ]
      rw [hsucc]
      push_cast
      field_simp
      ring
    · rw [hsucc]
      push_cast
      field_simp
      ring

lemma chi2Qloop_fst (m : ℝ) (h : ℕ) :
    (chi2Qloop m h).1
      = Real.exp (-m) * ∑ i in Finset.range (h - 1 + 1), m ^ i / (Nat.factorial i : ℝ) := by
  unfold chi2Qloop
  rw [chi2Qloop_aux m (h - 1)]

lemma sum_exp_antitone (n : ℕ) :
    AntitoneOn
      (fun m : ℝ => Real.exp (-m) * ∑ i in Finset.range (n + 1), m ^ i / (Nat.factorial i : ℝ))
      (Set.Ici 0) := by
  have hderiv : ∀ x : ℝ,
      HasDerivAt
        (fun m : ℝ => Real.exp (-m) * ∑ i in Finset.range (n + 1), m ^ i / (Nat.factorial i : ℝ))
        (-(Real.exp (-x)) * (x ^ n / (Nat.factorial n : ℝ))) x := by
    intro x
    have hS : HasDerivAt
        (fun m : ℝ => ∑ i in Finset.range (n + 1), m ^ i / (Nat.factorial i : ℝ))
        (∑ i in Finset.range n, x ^ i / (Nat.factorial i : ℝ)) x := by
      have h1 : HasDerivAt
          (fun m : ℝ => ∑ i in Finset.range (n + 1), m ^ i / (Nat.factorial i : ℝ))
          (∑ i in Finset.range (n + 1), (i : ℝ) * x ^ (i - 1) / (Nat.factorial i : ℝ)) x := by
        apply HasDerivAt.sum
        intro i _
        exact (hasDerivAt_pow i x).div_const _
      convert h1 using 1
      rw [Finset.sum_range_succ']
      norm_num [Nat.add_sub_cancel]
      apply Finset.sum_congr rfl
      intro i _
      have hfact : ((Nat.factorial i : ℝ)) ≠ 0 :=
        Nat.cast_ne_zero.mpr (Nat.factorial_ne_zero i)
      have hi1 : ((i : ℝ) + 1) ≠ 0 := by positivity
      rw [Nat.factorial_succ]
      push_cast
      field_simp
      ring
    have he : HasDerivAt (fun m : ℝ => Real.exp (-m)) (-Real.exp (-x)) x := by
      simpa using (hasDerivAt_neg x).exp
    have hmul := he.mul hS
    convert hmul using 1
    rw [Finset.sum_range_succ]
    ring
  apply antitoneOn_of_deriv_nonpos (convex_Ici 0)
  · exact fun x _ => (hderiv x).continuousAt.continuousWithinAt
  · intro x _
    exact (hderiv x).differentiableAt.differentiableWithinAt
  · intro x hx
    rw [(hderiv x).deriv]
    have hp : (0:ℝ) ≤ x ^ n / (Nat.factorial n : ℝ) := by
      have hx0 : (0:ℝ) < x := by simpa [interior_Ici] using hx
      positivity
    have he : (0:ℝ) < Real.exp (-x) := Real.exp_pos _
    nlinarith

/-- C8 counterexample: as stated over all inputs the claim fails — for
`v = 4` the series value is `exp(-m)·(1+m)` with `m = x2/2`, which is
increasing on negative statistics: `chi2Q(-2, 4) = 0 < chi2Q(-1, 4)`,
although `-2 ≤ -1`. -/
theorem chi2Q_not_antitone_cx :
    (-2 : ℝ) ≤ -1
    ∧ chi2Q (-2) 4 = .ok (chi2Qval (-2) 4)
    ∧ chi2Q (-1) 4 = .ok (chi2Qval (-1) 4)
    ∧ chi2Qval (-2) 4 < chi2Qval (-1) 4 := by
  refine ⟨by norm_num, rfl, rfl, ?_⟩
  have h2 : chi2Qval (-2) 4 = 0 := by
    unfold chi2Qval
    rw [chi2Qloop_fst]
    norm_num [Finset.sum_range_succ]
  rw [h2]
  unfold chi2Qval
  rw [chi2Qloop_fst]
  apply lt_min _ one_pos
  have : ∑ i in Finset.range ((4 / 2 : ℕ) - 1 + 1), ((-1:ℝ) / 2) ^ i / (Nat.factorial i : ℝ)
      = 1 / 2 := by
    norm_num [Finset.sum_range_succ]
  rw [this]
  positivity

/-- C8 amended: restricted to non-negative chi-squared statistics (the
function's meaningful domain; the counterexample above forces the
restriction), `chi2Q` is non-increasing in its first argument for every
even number of degrees of freedom `2k`. -/
theorem chi2Q_antitone_nonneg (k : ℕ) (x2a x2b a b : ℝ)
    (h0 : 0 ≤ x2a) (hab : x2a ≤ x2b)
    (ha : chi2Q x2a (2 * k) = .ok a) (hb : chi2Q x2b (2 * k) = .ok b) :
    b ≤ a := by
  have hev : (2 * k) % 2 = 0 := by omega
  unfold chi2Q at ha hb
  rw [if_pos hev] at ha hb
  obtain rfl : a = chi2Qval x2a (2 * k) := (Except.ok.inj ha).symm
  obtain rfl : b = chi2Qval x2b (2 * k) := (Except.ok.inj hb).symm
  unfold chi2Qval
  apply min_le_min _ (le_refl (1:ℝ))
  rw [chi2Qloop_fst, chi2Qloop_fst]
  exact sum_exp_antitone ((2 * k) / 2 - 1)
    (by simpa using by linarith : x2a / 2 ∈ Set.Ici (0:ℝ))
    (by simpa using by linarith : x2b / 2 ∈ Set.Ici (0:ℝ))
    (by linarith)

/-- Witness for C8's amended theorem at `v = 4`, `x2a = 0`, `x2b = 2`. -/
theorem chi2Q_antitone_nonneg_witness :
    (0:ℝ) ≤ 0 ∧ (0:ℝ) ≤ 2
    ∧ chi2Q 0 4 = .ok (chi2Qval 0 4) ∧ chi2Q 2 4 = .ok (chi2Qval 2 4)
    ∧ chi2Qval 2 4 ≤ chi2Qval 0 4 :=
  ⟨le_refl 0, by norm_num, rfl, rfl,
   chi2Q_antitone_nonneg 2 0 2 (chi2Qval 0 4) (chi2Qval 2 4) (le_refl 0)
     (by norm_num) rfl rfl⟩
